import Mathlib

/-!
Shallow embedding of the fetch-interceptor core of the repository
(source file src/utils.ts): the URL pattern matcher, handler registry,
global patch state, interception cache, replay pipeline and endpoint
tracker.  JS strings are modelled as lists of characters; JS objects and
Maps as insertion-ordered association lists with JS assignment and
spread-merge semantics (a JS object never holds duplicate keys, so
assignment overwrites the unique entry in place or appends a fresh one).
The external primitives that the code merely consumes (the
regular-expression test, the encodeURIComponent function, the real
network fetch) are abstract parameters.
-/

namespace Webext

abbrev Chars := List Char

/-- A JS object or Map: an insertion-ordered association list. -/
abbrev JsObj (α : Type) := List (Chars × α)

def toL (s : String) : Chars := s.toList

/-- Property read on a JS object or Map. -/
def rget {α : Type} : JsObj α → Chars → Option α
  | [], _ => none
  | p :: r, k => if p.1 = k then some p.2 else rget r k

/-- JS property assignment (and Map.set): overwrite in place when the key
is present, otherwise append, preserving insertion order. -/
def rset {α : Type} : JsObj α → Chars → α → JsObj α
  | [], k, v => [(k, v)]
  | p :: r, k, v => if p.1 = k then (k, v) :: r else p :: rset r k v

/-- JS delete on an object property (and Map.delete). -/
def rdel {α : Type} (r : JsObj α) (k : Chars) : JsObj α :=
  r.filter (fun p => p.1 != k)

/-- JS spread merge of two objects: assign every entry of the second
into a copy of the first, in order. -/
def rmerge {α : Type} (a b : JsObj α) : JsObj α :=
  b.foldl (fun acc p => rset acc p.1 p.2) a

/-! ### JS string primitives -/

/-- JS String.split with a one-character separator: every occurrence
splits, empty pieces are kept, and the empty string splits to one empty
piece. -/
def splitChar (sep : Char) : Chars → List Chars
  | [] => [[]]
  | c :: rest =>
    if c = sep then [] :: splitChar sep rest
    else
      match splitChar sep rest with
      | [] => [[c]]
      | s :: ss => (c :: s) :: ss

/-- Rejoin pieces with a one-character separator (inverse of splitChar). -/
def joinSep (sep : Char) : List Chars → Chars
  | [] => []
  | x :: xs =>
    match xs with
    | [] => x
    | _ :: _ => x ++ sep :: joinSep sep xs

/-- JS s.split(sep)[0]: the text before the first separator. -/
def headSplit (sep : Char) (s : Chars) : Chars := (splitChar sep s).headD []

/-- The matcher strips the query string: url.split(questionmark)[0]. -/
def stripQuery (s : Chars) : Chars := headSplit '?' s

/-- JS String.includes (substring test), by scanning every suffix. -/
def jsIncludes (hay needle : Chars) : Bool :=
  if needle.isPrefixOf hay then true
  else
    match hay with
    | [] => false
    | _ :: t => jsIncludes t needle

/-- The substring relation the spec speaks about. -/
def substrOf (needle hay : Chars) : Prop := ∃ l r, hay = l ++ needle ++ r

/-! ### Pattern matcher (src/utils.ts, matchPattern) -/

/-- A handler pattern: a string, or a structured regular expression.
Regular expressions are opaque external values, identified by a number
and evaluated by an abstract test function. -/
inductive UrlPattern where
  | str : Chars → UrlPattern
  | regex : Nat → UrlPattern
deriving DecidableEq

/-- The abstract test primitive for regular expressions. -/
abbrev RegexTest := Nat → Chars → Bool

/-- Strip the configured base path from the url when it is present:
url.startsWith(base) gives url.slice(base.length), else the url. -/
def dropBase (nbp url : Chars) : Chars :=
  if nbp.isPrefixOf url then url.drop nbp.length else url

/-- A pattern segment starting with a colon is a token segment
(JS patternPart.startsWith of the colon). -/
def isToken : Chars → Bool
  | [] => false
  | c :: _ => c == ':'

/-- The pairwise walk of pattern segments against url segments: a token
segment stores the url segment under the token name (the segment text
after the colon, JS slice from one), a literal segment must equal the
url segment exactly, otherwise the match fails. -/
def walkSegs : List Chars → List Chars → JsObj Chars → Option (JsObj Chars)
  | [], [], acc => some acc
  | p :: ps, u :: us, acc =>
    if isToken p then walkSegs ps us (rset acc (p.drop 1) u)
    else if p = u then walkSegs ps us acc
    else none
  | _, _, _ => none

/-- matchPattern: strip the base path and the query string from the url;
a regex pattern is tested against the stripped path; a string pattern
containing a colon is matched segment-wise with token extraction after
requiring equal segment counts; any other string pattern matches by
substring containment. -/
def matchPattern (nbp : Chars) (rt : RegexTest) (url : Chars) (pat : UrlPattern) :
    Option (JsObj Chars) :=
  let urlToMatch := dropBase nbp url
  let urlPath := stripQuery urlToMatch
  match pat with
  | .regex r => if rt r urlPath then some [] else none
  | .str s =>
    let patternPath := stripQuery s
    if patternPath.contains ':' then
      let patternParts := splitChar '/' patternPath
      let urlParts := splitChar '/' urlPath
      if patternParts.length ≠ urlParts.length then none
      else walkSegs patternParts urlParts []
    else if jsIncludes urlPath patternPath then some [] else none

/-! ### Key parsing and URL building (parseKey, buildUrl) -/

/-- parseKey: no colon means the GET verb and the whole key as name;
otherwise the text before the first colon, uppercased, is the verb and
the text after it is the name. -/
def parseKey (key : Chars) : Chars × Chars :=
  match key.findIdx? (fun c => c == ':') with
  | none => (toL "GET", key)
  | some i => ((key.take i).map Char.toUpper, key.drop (i + 1))

/-- The canonical full key VERB:name. -/
def fullKeyOf (key : Chars) : Chars :=
  (parseKey key).1 ++ ':' :: (parseKey key).2

/-- A JS word character, as matched by a regex w class. -/
def isWordChar (c : Char) : Bool := c.isAlphanum || c == '_'

/-- The token-replacement pass of buildUrl: the JS regex replace scans
left to right; a colon followed by a maximal nonempty run of word
characters is a token occurrence, replaced by the matching entry of the
params bag (consuming it) or kept verbatim when the bag has no entry. -/
def repTok : Chars → JsObj Chars → Chars × JsObj Chars
  | [], q => ([], q)
  | c :: rest, q =>
    if c = ':' then
      let tok := rest.takeWhile isWordChar
      if tok.isEmpty then
        let r := repTok rest q
        (c :: r.1, r.2)
      else
        match rget q tok with
        | some v =>
          let r := repTok (rest.drop tok.length) (rdel q tok)
          (v ++ r.1, r.2)
        | none =>
          let r := repTok (rest.drop tok.length) q
          (c :: tok ++ r.1, r.2)
    else
      let r := repTok rest q
      (c :: r.1, r.2)
termination_by s _ => s.length
decreasing_by
  all_goals (simp only [List.length_cons, List.length_drop]; omega)

/-- buildUrl: prepend the base path, replace path tokens from a copy of
the params bag, then serialize the unconsumed params as a query string
joined with the right separator.  The encodeURIComponent primitive is an
abstract parameter. -/
def buildUrl (enc : Chars → Chars) (nbp : Chars) (pat : Chars) (params : JsObj Chars) :
    Chars :=
  let url0 := nbp ++ pat
  let r := repTok url0 params
  let remaining := r.2
  if remaining.length > 0 then
    let qs := joinSep '&' (remaining.map (fun p => enc p.1 ++ '=' :: enc p.2))
    r.1 ++ (if r.1.contains '?' then ['&'] else ['?']) ++ qs
  else r.1

/-! ### Data model: handler registry, cache, global patch state -/

/-- One registered interception rule.  The handler callback and the
matchPattern reference of the source are represented by an opaque
callback identifier and by the registering session's normalized base
path (the only data the matchPattern closure captures). -/
structure HandlerConfig where
  pattern : UrlPattern
  handler : Nat
  verb : Chars
  requiredHeaders : List Chars
  basePath : Chars
deriving DecidableEq

/-- Captured metadata for the first request observed for a key. -/
structure CachedRequest where
  url : Chars
  method : Chars
  headers : JsObj Chars
  body : Option Chars
deriving DecidableEq

/-- The process-wide singleton window.__fetchInterceptorCache.  Saved
original primitives are function identities, modelled as numbers. -/
structure Cache where
  requests : JsObj CachedRequest
  headers : JsObj Chars
  accessedEndpoints : List Chars
  isPatched : Bool
  originalFetch : Option Nat
  originalJson : Option Nat
  allHandlers : JsObj HandlerConfig
deriving DecidableEq

/-- The world: the global cache plus the currently installed
window.fetch and Response.prototype.json function identities. -/
structure World where
  cache : Cache
  windowFetch : Nat
  respJson : Nat
deriving DecidableEq

/-- One caller session of useFetchInterceptor: its local handler
registry, its caller-default headers, default required headers, and its
normalized base path. -/
structure Session where
  handlers : JsObj HandlerConfig
  defaultHeaders : JsObj Chars
  defaultRequiredHeaders : List Chars
  basePath : Chars
deriving DecidableEq

/-- normalizeBasePath: drop one trailing slash. -/
def normalizeBasePath (path : Chars) : Chars :=
  if path.getLast? = some '/' then path.dropLast else path

/-- Session construction by useFetchInterceptor: defaults merge the
global header bag with the option headers. -/
def mkSession (w : World) (bp : Chars) (optHeaders : JsObj Chars)
    (optRequired : List Chars) : Session :=
  { handlers := []
    defaultHeaders := rmerge w.cache.headers optHeaders
    defaultRequiredHeaders := optRequired
    basePath := normalizeBasePath bp }

/-! ### Interception engine -/

/-- ensurePatched: a no-op when already patched; otherwise save the
current primitives and install the wrappers (fresh function identities
passed by the caller). -/
def ensurePatched (wf wj : Nat) (w : World) : World :=
  if w.cache.isPatched then w
  else
    { cache := { w.cache with
        isPatched := true
        originalFetch := some w.windowFetch
        originalJson := some w.respJson }
      windowFetch := wf
      respJson := wj }

/-- The patched fetch wrapper's endpoint tracking: normalize the method
(default GET, uppercased) and add the METHOD URL entry to the accessed
set (insertion-ordered, membership-unique). -/
def trackFetch (url : Chars) (methodInit : Option Chars) (w : World) : World :=
  let method := (methodInit.getD (toL "GET")).map Char.toUpper
  let entry := method ++ ' ' :: url
  { w with cache := { w.cache with accessedEndpoints :=
      if w.cache.accessedEndpoints.contains entry then w.cache.accessedEndpoints
      else w.cache.accessedEndpoints ++ [entry] } }

/-- The request metadata the fetch wrapper tags onto a response for the
body-decode wrapper. -/
structure ResponseMeta where
  url : Chars
  method : Chars
  headers : JsObj Chars
  body : Option Chars
deriving DecidableEq

/-- A handler callback firing, recorded by the decode wrapper model. -/
structure Invocation where
  key : Chars
  handler : Nat
  params : JsObj Chars
deriving DecidableEq

/-- One loop iteration of the patched Response.prototype.json wrapper:
skip on verb mismatch or pattern non-match; otherwise capture a
CachedRequest for the key unless one already exists (also merging the
observed headers into the global header bag), then fire the handler. -/
def observeStep (rt : RegexTest) (meta : ResponseMeta)
    (acc : World × List Invocation) (kv : Chars × HandlerConfig) :
    World × List Invocation :=
  if kv.2.verb ≠ meta.method then acc
  else
    match matchPattern kv.2.basePath rt meta.url kv.2.pattern with
    | none => acc
    | some ps =>
      let w1 :=
        if (rget acc.1.cache.requests kv.1).isSome then acc.1
        else
          { acc.1 with cache := { acc.1.cache with
              requests := rset acc.1.cache.requests kv.1
                { url := meta.url, method := meta.method
                  headers := meta.headers, body := meta.body }
              headers := rmerge acc.1.cache.headers meta.headers } }
      (w1, acc.2 ++ [⟨kv.1, kv.2.handler, ps⟩])

/-- The patched Response.prototype.json wrapper: walk every handler of
the aggregate registry in order. -/
def observeJson (rt : RegexTest) (meta : ResponseMeta) (w : World) :
    World × List Invocation :=
  w.cache.allHandlers.foldl (observeStep rt meta) (w, [])

/-! ### Handler registry operations -/

/-- add: ensure the patch is installed, compute the full key, build the
config (required headers are session defaults then handler-specific
ones) and store it in the local and the aggregate registry. -/
def add (wf wj : Nat) (sess : Session) (w : World) (key : Chars)
    (pat : UrlPattern) (hid : Nat) (reqHeaders : List Chars) :
    Session × World × Chars :=
  let w1 := ensurePatched wf wj w
  let fullKey := fullKeyOf key
  let config : HandlerConfig :=
    { pattern := pat
      handler := hid
      verb := (parseKey key).1
      requiredHeaders := sess.defaultRequiredHeaders ++ reqHeaders
      basePath := sess.basePath }
  ({ sess with handlers := rset sess.handlers fullKey config },
   { w1 with cache := { w1.cache with
       allHandlers := rset w1.cache.allHandlers fullKey config } },
   fullKey)

/-- remove: delete the key from the local registry, the aggregate
registry and the request cache. -/
def remove (sess : Session) (w : World) (key : Chars) : Session × World :=
  let fullKey := fullKeyOf key
  ({ sess with handlers := rdel sess.handlers fullKey },
   { w with cache := { w.cache with
       allHandlers := rdel w.cache.allHandlers fullKey
       requests := rdel w.cache.requests fullKey } })

/-- restore: delete this session's keys from the aggregate registry and
clear the local one; when the aggregate registry became empty and the
patch is installed, put back the saved original primitives (the source
asserts they are non-null there) and clear the patched flag. -/
def restore (sess : Session) (w : World) : Session × World :=
  let ag := sess.handlers.foldl (fun m p => rdel m p.1) w.cache.allHandlers
  let sess1 := { sess with handlers := ([] : JsObj HandlerConfig) }
  if ag.isEmpty ∧ w.cache.isPatched then
    (sess1,
     { cache := { w.cache with allHandlers := ag, isPatched := false }
       windowFetch := w.cache.originalFetch.getD w.windowFetch
       respJson := w.cache.originalJson.getD w.respJson })
  else (sess1, { w with cache := { w.cache with allHandlers := ag } })

/-! ### Replay engine (call) -/

/-- The replay failure taxonomy, each carrying the resolved full key. -/
inductive CallError where
  | unknownHandler : Chars → CallError
  | unsupportedPattern : Chars → CallError
  | missingRequiredHeaders : Chars → List Chars → CallError
deriving DecidableEq

/-- The request handed to fetch by a successful replay. -/
structure FetchRequest where
  url : Chars
  method : Chars
  headers : JsObj Chars
  mode : Chars
  credentials : Chars
  body : Option Chars
deriving DecidableEq

/-- JS truthiness of a header lookup: absent or the empty string. -/
def isFalsyStr (o : Option Chars) : Bool :=
  match o with
  | none => true
  | some v => v.isEmpty

/-- JS truthiness of an optional body value. -/
def truthyBody (o : Option Chars) : Bool :=
  match o with
  | none => false
  | some v => !v.isEmpty

/-- The header merge performed by call: session defaults, then the
cached request headers when present, then the call-time headers. -/
def mergedHeadersOf (sess : Session) (w : World) (key : Chars)
    (optHeaders : JsObj Chars) : JsObj Chars :=
  rmerge
    (rmerge sess.defaultHeaders
      (((rget w.cache.requests (fullKeyOf key)).map (·.headers)).getD []))
    optHeaders

/-- The missing-required-headers list computed by call: the required
headers whose merged value is falsy, when the required list is
nonempty. -/
def missingOf (sess : Session) (w : World) (key : Chars) (optHeaders : JsObj Chars)
    (handler : HandlerConfig) : List Chars :=
  if handler.requiredHeaders.length > 0 then
    handler.requiredHeaders.filter
      (fun h => isFalsyStr (rget (mergedHeadersOf sess w key optHeaders) h))
  else []

/-- call, up to the point the network request is issued: resolve the
full key against the local registry, reject regex patterns, merge the
header sources, reject when a required header is falsy in the merge,
then build the URL and the request.  The returned value is the request
handed to fetch; an error models the synchronous throw. -/
def call (enc : Chars → Chars) (sess : Session) (w : World) (key : Chars)
    (params : JsObj Chars) (optHeaders : JsObj Chars) (optBody : Option Chars) :
    Except CallError FetchRequest :=
  let fullKey := fullKeyOf key
  match rget sess.handlers fullKey with
  | none => .error (.unknownHandler fullKey)
  | some handler =>
    match handler.pattern with
    | .regex _ => .error (.unsupportedPattern fullKey)
    | .str pat =>
      let cached := rget w.cache.requests fullKey
      let headers := mergedHeadersOf sess w key optHeaders
      let missing := missingOf sess w key optHeaders handler
      if missing.length > 0 then
        .error (.missingRequiredHeaders fullKey missing)
      else
        .ok
          { url := buildUrl enc sess.basePath pat params
            method := (parseKey key).1
            headers := headers
            mode := toL "cors"
            credentials := toL "omit"
            body :=
              if truthyBody optBody then optBody
              else if truthyBody (cached.bind (·.body)) && !truthyBody optBody then
                cached.bind (·.body)
              else none }

/-- The network requests a call issues: none when it throws, exactly the
constructed one when it succeeds. -/
def callRequests (enc : Chars → Chars) (sess : Session) (w : World) (key : Chars)
    (params : JsObj Chars) (optHeaders : JsObj Chars) (optBody : Option Chars) :
    List FetchRequest :=
  match call enc sess w key params optHeaders optBody with
  | .error _ => []
  | .ok r => [r]

/-! ### Endpoint tracker (useFetchTracker) -/

/-- The verb component of a METHOD URL entry: the text before the first
space (JS slice semantics when no space exists). -/
def endpointVerb (e : Chars) : Chars :=
  match e.findIdx? (fun c => c == ' ') with
  | some i => e.take i
  | none => e.take (e.length - 1)

/-- The url component of a METHOD URL entry: the text after the first
space, the whole entry when no space exists. -/
def endpointUrl (e : Chars) : Chars :=
  match e.findIdx? (fun c => c == ' ') with
  | some i => e.drop (i + 1)
  | none => e

/-- The reduce step of getEndpoints: create the bucket when absent, then
push the value. -/
def pushEntry : JsObj (List Chars) → Chars → Chars → JsObj (List Chars)
  | [], k, v => [(k, [v])]
  | p :: acc, k, v =>
    if p.1 = k then (p.1, p.2 ++ [v]) :: acc else p :: pushEntry acc k v

/-- getEndpoints: grouped groups verbs by URL, ungrouped groups URLs by
verb, both by re-parsing every stored METHOD URL entry. -/
def getEndpoints (grouped : Bool) (eps : List Chars) : JsObj (List Chars) :=
  if grouped then
    eps.foldl (fun acc e => pushEntry acc (endpointUrl e) (endpointVerb e)) []
  else
    eps.foldl (fun acc e => pushEntry acc (endpointVerb e) (endpointUrl e)) []

/-- The lazily created initial global cache. -/
def initCache : Cache :=
  { requests := [], headers := [], accessedEndpoints := [], isPatched := false
    originalFetch := none, originalJson := none, allHandlers := [] }

/-- A fresh world: initial cache plus the unpatched primitives. -/
def initWorld (wf wj : Nat) : World :=
  { cache := initCache, windowFetch := wf, respJson := wj }

/-- An abstract regex test that never matches, used in witnesses. -/
def rtNone : RegexTest := fun _ _ => false

def cfgW : HandlerConfig :=
  ⟨.str (toL "/u/:id"), 7, toL "GET", [], []⟩

def crW : CachedRequest := ⟨toL "/u/42", toL "GET", [], none⟩

def wW5 : World :=
  ⟨⟨[(toL "GET:u", crW)], [], [], true, some 1, some 2, [(toL "GET:u", cfgW)]⟩, 3, 4⟩

def metaW : ResponseMeta := ⟨toL "/u/43", toL "GET", [], none⟩

def sessW7 : Session := ⟨[(toL "GET:a", cfgW)], [], [], []⟩

def wW7 : World :=
  ⟨⟨[], [], [], true, some 9, some 10, [(toL "GET:a", cfgW), (toL "GET:b", cfgW)]⟩, 3, 4⟩

/-! ### Claims about the replay pipeline -/

def sessW1 : Session :=
  ⟨[(toL "GET:x", ⟨.str (toL "/p"), 0, toL "GET", [], []⟩)],
   [(toL "A", toL "1")], [], []⟩

def wW1 : World :=
  ⟨⟨[(toL "GET:x", ⟨toL "/p", toL "GET", [(toL "A", toL "2"), (toL "B", toL "2")], none⟩)],
    [], [], false, none, none, []⟩, 1, 2⟩

def sessW4 : Session :=
  ⟨[(toL "GET:x", ⟨.str (toL "/p"), 0, toL "GET", [toL "A"], []⟩)], [], [], []⟩

/-! ### The match and build round trip (C10) -/

/-- A pattern segment that is a plain literal: no colon, no question
mark. -/
def isLitSeg (s : Chars) : Bool := !s.contains ':' && !s.contains '?'

/-- A pattern segment that is a whole well-formed token: a colon
followed by a nonempty run of word characters. -/
def isTokSeg (s : Chars) : Bool :=
  isToken s && !(s.drop 1).isEmpty && (s.drop 1).all isWordChar

/-- The token names of a segment list, in order. -/
def tokenNames (ps : List Chars) : List Chars :=
  (ps.filter (fun p => isToken p)).map (fun p => p.drop 1)

/-- The name-to-segment bindings the walk extracts, in token order. -/
def tokenBinds : List Chars → List Chars → JsObj Chars
  | p :: ps, u :: us =>
    if isToken p then (p.drop 1, u) :: tokenBinds ps us else tokenBinds ps us
  | _, _ => []

/-- Delete a list of keys in order. -/
def rdelAll (q : JsObj Chars) (names : List Chars) : JsObj Chars :=
  names.foldl rdel q

/-! ### Theorems -/

theorem rget_rset_self {α : Type} (r : JsObj α) (k : Chars) (v : α) :
    rget (rset r k v) k = some v := by
  induction r with
  | nil => simp [rget, rset]
  | cons p r ih =>
    by_cases h : p.1 = k
    · simp [rget, rset, h]
    · simp [rget, rset, h, ih]

theorem rget_rset_ne {α : Type} (r : JsObj α) (k k' : Chars) (v : α) (h : k' ≠ k) :
    rget (rset r k v) k' = rget r k' := by
  induction r with
  | nil => simp [rget, rset, Ne.symm h]
  | cons p r ih =>
    by_cases hp : p.1 = k
    · have h1 : ¬(k = k') := fun hc => h hc.symm
      have h2 : ¬(p.1 = k') := by rw [hp]; exact h1
      simp [rget, rset, hp, h1, h2]
    · have e1 : rset (p :: r) k v = p :: rset r k v := by simp [rset, hp]
      rw [e1]
      by_cases hk' : p.1 = k'
      · simp [rget, hk']
      · simp [rget, hk', ih]

theorem rget_rdel_self {α : Type} (r : JsObj α) (k : Chars) :
    rget (rdel r k) k = none := by
  induction r with
  | nil => rfl
  | cons p r ih =>
    by_cases h : p.1 = k
    · simpa [rdel, List.filter_cons, h] using ih
    · simpa [rdel, List.filter_cons, h, rget] using ih

theorem rget_rdel_ne {α : Type} (r : JsObj α) (k k' : Chars) (h : k' ≠ k) :
    rget (rdel r k) k' = rget r k' := by
  induction r with
  | nil => rfl
  | cons p r ih =>
    by_cases hp : p.1 = k
    · have h1 : ¬(k = k') := fun hc => h hc.symm
      have h2 : ¬(p.1 = k') := by rw [hp]; exact h1
      simpa [rdel, List.filter_cons, hp, rget, h1, h2] using ih
    · have e1 : rdel (p :: r) k = p :: rdel r k := by
        simp [rdel, List.filter_cons, hp]
      rw [e1]
      by_cases hk' : p.1 = k'
      · simp [rget, hk']
      · simp [rget, hk', ih]

theorem rdel_eq_filter {α : Type} (r : JsObj α) (k : Chars) :
    rdel r k = r.filter (fun p => p.1 != k) := rfl

theorem splitChar_ne_nil (sep : Char) (s : Chars) : splitChar sep s ≠ [] := by
  cases s with
  | nil => simp [splitChar]
  | cons c rest =>
    by_cases h : c = sep
    · simp [splitChar, h]
    · simp only [splitChar, h, if_false]
      cases hs : splitChar sep rest <;> simp

theorem joinSep_splitChar (sep : Char) (s : Chars) :
    joinSep sep (splitChar sep s) = s := by
  induction s with
  | nil => rfl
  | cons c rest ih =>
    by_cases h : c = sep
    · subst h
      simp only [splitChar, if_pos rfl]
      cases hs : splitChar c rest with
      | nil => exact absurd hs (splitChar_ne_nil c rest)
      | cons x xs =>
        rw [hs] at ih
        show c :: joinSep c (x :: xs) = c :: rest
        rw [ih]
    · simp only [splitChar, h, if_false]
      cases hs : splitChar sep rest with
      | nil => exact absurd hs (splitChar_ne_nil sep rest)
      | cons x xs =>
        rw [hs] at ih
        cases xs with
        | nil => simpa [joinSep] using ih
        | cons y ys => simpa [joinSep] using ih

theorem stripQuery_eq_takeWhile (s : Chars) :
    stripQuery s = s.takeWhile (fun c => c != '?') := by
  induction s with
  | nil => rfl
  | cons c rest ih =>
    by_cases h : c = '?'
    · simp [stripQuery, headSplit, splitChar, h]
    · have hb : (c != '?') = true := by simpa using h
      rw [List.takeWhile_cons, hb, if_pos rfl]
      simp only [stripQuery, headSplit, splitChar, h, if_false] at ih ⊢
      cases hs : splitChar '?' rest with
      | nil => exact absurd hs (splitChar_ne_nil '?' rest)
      | cons x xs =>
        rw [hs] at ih
        simp only [List.headD_cons] at ih
        show c :: x = c :: List.takeWhile (fun c => c != '?') rest
        rw [ih]

theorem stripQuery_of_not_contains (s : Chars) (h : s.contains '?' = false) :
    stripQuery s = s := by
  rw [stripQuery_eq_takeWhile]
  induction s with
  | nil => rfl
  | cons c rest ih =>
    simp only [List.contains_cons, Bool.or_eq_false_iff] at h
    have hc : ¬(c = '?') := by
      intro hc; subst hc; simp at h
    simp [List.takeWhile_cons, hc, ih h.2]

theorem contains_of_mem (s : Chars) (c : Char) (h : c ∈ s) : s.contains c = true :=
  List.elem_iff.mpr h

theorem not_contains_iff (s : Chars) (c : Char) :
    s.contains c = false ↔ c ∉ s := by
  rw [← Bool.not_eq_true]
  exact not_congr List.elem_iff

/-- isPrefixOf really is prefix-append. -/
theorem isPrefixOf_append_drop (p s : Chars) (h : p.isPrefixOf s = true) :
    p ++ s.drop p.length = s := by
  induction p generalizing s with
  | nil => simp
  | cons c cs ih =>
    cases s with
    | nil => simp [List.isPrefixOf] at h
    | cons d ds =>
      have h' : (c == d && cs.isPrefixOf ds) = true := h
      rcases Bool.and_eq_true_iff.mp h' with ⟨h1, h2⟩
      have : c = d := by simpa using h1
      subst this
      simp [ih ds h2]

theorem isPrefixOf_iff_exists (p s : Chars) :
    p.isPrefixOf s = true ↔ ∃ t, s = p ++ t := by
  constructor
  · intro h
    exact ⟨s.drop p.length, (isPrefixOf_append_drop p s h).symm⟩
  · rintro ⟨t, rfl⟩
    induction p with
    | nil => simp [List.isPrefixOf]
    | cons c cs ih => simp [List.isPrefixOf, ih]

theorem jsIncludes_iff_substrOf (hay needle : Chars) :
    jsIncludes hay needle = true ↔ substrOf needle hay := by
  induction hay with
  | nil =>
    simp only [jsIncludes]
    cases needle with
    | nil => simp [List.isPrefixOf, substrOf]
    | cons c cs =>
      simp only [List.isPrefixOf, Bool.false_eq_true, if_false]
      constructor
      · intro h; cases h
      · rintro ⟨l, r, h⟩
        exact absurd h (by simp)
  | cons c t ih =>
    rw [jsIncludes]
    by_cases hp : needle.isPrefixOf (c :: t) = true
    · simp only [hp, if_true, true_iff]
      rcases (isPrefixOf_iff_exists needle (c :: t)).mp hp with ⟨r, hr⟩
      exact ⟨[], r, by simpa using hr⟩
    · rw [if_neg hp]
      show jsIncludes t needle = true ↔ _
      rw [ih]
      constructor
      · rintro ⟨l, r, hr⟩
        exact ⟨c :: l, r, by simp [hr]⟩
      · rintro ⟨l, r, hr⟩
        cases l with
        | nil =>
          exfalso
          apply hp
          rw [isPrefixOf_iff_exists]
          exact ⟨r, by simpa using hr⟩
        | cons x xs =>
          refine ⟨xs, r, ?_⟩
          have : c = x ∧ t = xs ++ needle ++ r := by simpa using hr
          simp [this.2]

/-! ### Lemmas about the endpoint grouping fold -/

theorem rget_pushEntry_self (acc : JsObj (List Chars)) (k v : Chars) :
    rget (pushEntry acc k v) k = some ((rget acc k).getD [] ++ [v]) := by
  induction acc with
  | nil => simp [pushEntry, rget]
  | cons p acc ih =>
    by_cases h : p.1 = k
    · simp [pushEntry, rget, h]
    · simp [pushEntry, rget, h, ih]

theorem rget_pushEntry_ne (acc : JsObj (List Chars)) (k k' v : Chars) (h : k' ≠ k) :
    rget (pushEntry acc k v) k' = rget acc k' := by
  induction acc with
  | nil => simp [pushEntry, rget, Ne.symm h]
  | cons p acc ih =>
    by_cases hp : p.1 = k
    · have h1 : ¬(k = k') := fun hc => h hc.symm
      have h2 : ¬(p.1 = k') := by rw [hp]; exact h1
      simp [pushEntry, rget, hp, h1, h2]
    · have e1 : pushEntry (p :: acc) k v = p :: pushEntry acc k v := by
        simp [pushEntry, hp]
      rw [e1]
      by_cases hk' : p.1 = k'
      · simp [rget, hk']
      · simp [rget, hk', ih]

theorem rget_groupFold (f g : Chars → Chars) (l : List Chars)
    (acc : JsObj (List Chars)) (k : Chars) :
    rget (l.foldl (fun a e => pushEntry a (f e) (g e)) acc) k
      = match rget acc k with
        | some vs => some (vs ++ (l.filter (fun e => f e == k)).map g)
        | none =>
          if (l.filter (fun e => f e == k)).isEmpty then none
          else some ((l.filter (fun e => f e == k)).map g) := by
  induction l generalizing acc with
  | nil => cases h : rget acc k <;> simp [h]
  | cons e l ih =>
    simp only [List.foldl_cons]
    rw [ih]
    by_cases hk : f e = k
    · subst hk
      rw [rget_pushEntry_self]
      cases h : rget acc (f e) with
      | none => simp [h, List.filter_cons]
      | some vs => simp [h, List.filter_cons]
    · rw [rget_pushEntry_ne _ _ _ _ (fun hc => hk hc.symm)]
      have hb : ¬(f e == k) = true := by simpa using hk
      cases h : rget acc k with
      | none => simp [h, List.filter_cons, hb]
      | some vs => simp [h, List.filter_cons, hb]

/-- C8: after the shared endpoint set has recorded exactly GET /a,
POST /a and GET /b, getEndpoints true returns /a mapped to GET, POST and
/b mapped to GET, while getEndpoints false returns GET mapped to /a, /b
and POST mapped to /a; in general grouped groups the verbs of the
matching entries by URL and ungrouped groups the URLs by verb, derived
by splitting every stored METHOD URL entry on its first space. -/
theorem c8_getEndpoints :
    (∀ (eps : List Chars) (u : Chars),
        rget (getEndpoints true eps) u =
          (if ((eps.filter (fun e => endpointUrl e == u)).map endpointVerb).isEmpty then none
           else some ((eps.filter (fun e => endpointUrl e == u)).map endpointVerb)))
    ∧ (∀ (eps : List Chars) (v : Chars),
        rget (getEndpoints false eps) v =
          (if ((eps.filter (fun e => endpointVerb e == v)).map endpointUrl).isEmpty then none
           else some ((eps.filter (fun e => endpointVerb e == v)).map endpointUrl)))
    ∧ ((trackFetch (toL "/b") none (trackFetch (toL "/a") (some (toL "post"))
          (trackFetch (toL "/a") none (initWorld 0 0)))).cache.accessedEndpoints
        = [toL "GET /a", toL "POST /a", toL "GET /b"])
    ∧ getEndpoints true [toL "GET /a", toL "POST /a", toL "GET /b"]
        = [(toL "/a", [toL "GET", toL "POST"]), (toL "/b", [toL "GET"])]
    ∧ getEndpoints false [toL "GET /a", toL "POST /a", toL "GET /b"]
        = [(toL "GET", [toL "/a", toL "/b"]), (toL "POST", [toL "/a"])] := by
  refine ⟨?_, ?_, by decide, by decide, by decide⟩
  · intro eps u
    have h := rget_groupFold endpointUrl endpointVerb eps [] u
    simp only [rget] at h
    simpa [getEndpoints] using h
  · intro eps v
    have h := rget_groupFold endpointVerb endpointUrl eps [] v
    simp only [rget] at h
    simpa [getEndpoints] using h

/-! ### Lemmas about registry folds -/

theorem rget_eq_none_iff {α : Type} (r : JsObj α) (k : Chars) :
    rget r k = none ↔ ∀ p ∈ r, p.1 ≠ k := by
  induction r with
  | nil => simp [rget]
  | cons p r ih =>
    by_cases h : p.1 = k
    · constructor
      · intro hc; rw [rget, if_pos h] at hc; cases hc
      · intro hall; exact absurd h (hall p (List.mem_cons_self p r))
    · rw [rget, if_neg h, ih]
      constructor
      · intro hall q hq
        rcases List.mem_cons.mp hq with rfl | hq'
        · exact h
        · exact hall q hq'
      · intro hall q hq; exact hall q (List.mem_cons_of_mem p hq)

theorem rget_foldl_rdel {α β : Type} (l : List (Chars × α)) (m : JsObj β) (k : Chars)
    (h : ∀ p ∈ l, p.1 ≠ k) :
    rget (l.foldl (fun m p => rdel m p.1) m) k = rget m k := by
  induction l generalizing m with
  | nil => rfl
  | cons p l ih =>
    simp only [List.foldl_cons]
    have h1 : p.1 ≠ k := h p (List.mem_cons_self p l)
    have h2 : ∀ q ∈ l, q.1 ≠ k := fun q hq => h q (List.mem_cons_of_mem p hq)
    rw [ih _ h2]
    exact rget_rdel_ne m p.1 k (fun hc => h1 hc.symm)

/-- C6: starting unpatched, installing the patch twice is the same as
installing it once (the originals are saved exactly once, from the
pre-patch world), and a restore that empties the aggregate registry puts
back exactly those saved function identities and clears the flag. -/
theorem c6_patch_idempotent (w : World) (wf wj wf2 wj2 : Nat)
    (h : w.cache.isPatched = false) :
    ensurePatched wf2 wj2 (ensurePatched wf wj w) = ensurePatched wf wj w
    ∧ (ensurePatched wf wj w).cache.originalFetch = some w.windowFetch
    ∧ (ensurePatched wf wj w).cache.originalJson = some w.respJson
    ∧ ∀ sess : Session,
        sess.handlers.foldl (fun m p => rdel m p.1)
          (ensurePatched wf wj w).cache.allHandlers = [] →
        (restore sess (ensurePatched wf wj w)).2.windowFetch = w.windowFetch
        ∧ (restore sess (ensurePatched wf wj w)).2.respJson = w.respJson
        ∧ (restore sess (ensurePatched wf wj w)).2.cache.isPatched = false := by
  have e1 : ensurePatched wf wj w =
      { cache := { w.cache with
          isPatched := true
          originalFetch := some w.windowFetch
          originalJson := some w.respJson }
        windowFetch := wf
        respJson := wj } := by
    simp [ensurePatched, h]
  refine ⟨?_, ?_, ?_, ?_⟩
  · rw [e1]; simp [ensurePatched]
  · rw [e1]
  · rw [e1]
  · intro sess hag
    rw [e1] at hag
    simp only at hag
    rw [e1, restore]
    simp [hag]

/-- C7: a session's restore leaves every aggregate-registry key it does
not hold locally untouched, and while the aggregate registry stays
nonempty the patched flag and the installed wrapper identities are
unchanged; the flag can only flip when the aggregate registry has become
empty. -/
theorem c7_restore_scoped (sess : Session) (w : World) :
    (∀ k, rget sess.handlers k = none →
        rget (restore sess w).2.cache.allHandlers k = rget w.cache.allHandlers k)
    ∧ ((restore sess w).2.cache.allHandlers ≠ [] →
        (restore sess w).2.cache.isPatched = w.cache.isPatched
        ∧ (restore sess w).2.windowFetch = w.windowFetch
        ∧ (restore sess w).2.respJson = w.respJson)
    ∧ ((restore sess w).2.cache.isPatched ≠ w.cache.isPatched →
        (restore sess w).2.cache.allHandlers = []) := by
  have hpres : ∀ k, rget sess.handlers k = none →
      rget (sess.handlers.foldl (fun m p => rdel m p.1) w.cache.allHandlers) k
        = rget w.cache.allHandlers k := by
    intro k hk
    exact rget_foldl_rdel _ _ _ (fun p hp hc => ((rget_eq_none_iff _ _).mp hk) p hp hc)
  simp only [restore]
  split
  next hcond =>
    have hemp : sess.handlers.foldl (fun m p => rdel m p.1) w.cache.allHandlers = [] :=
      List.isEmpty_iff.mp hcond.1
    refine ⟨?_, ?_, ?_⟩
    · intro k hk
      simpa using hpres k hk
    · intro hne
      exact absurd hemp (by simpa using hne)
    · intro _
      simpa using hemp
  next hcond =>
    refine ⟨?_, ?_, ?_⟩
    · intro k hk
      simpa using hpres k hk
    · intro _
      exact ⟨rfl, rfl, rfl⟩
    · intro hne
      exact absurd rfl hne

/-! ### Lemmas about the interception cache -/

theorem requests_observeStep (rt : RegexTest) (meta : ResponseMeta)
    (acc : World × List Invocation) (kv : Chars × HandlerConfig) (k : Chars)
    (c : CachedRequest) (h : rget acc.1.cache.requests k = some c) :
    rget (observeStep rt meta acc kv).1.cache.requests k = some c := by
  rw [observeStep]
  by_cases hv : kv.2.verb ≠ meta.method
  · simp [hv, h]
  · simp only [hv, if_neg, if_false]
    cases hm : matchPattern kv.2.basePath rt meta.url kv.2.pattern with
    | none => exact h
    | some ps =>
      simp only
      by_cases hc : (rget acc.1.cache.requests kv.1).isSome
      · simp [hc, h]
      · have hne : k ≠ kv.1 := by
          intro he
          rw [← he, h] at hc
          exact hc rfl
        simp only [hc, Bool.false_eq_true, if_false]
        rw [rget_rset_ne _ _ _ _ hne]
        exact h

theorem requests_observeFold (rt : RegexTest) (meta : ResponseMeta)
    (l : JsObj HandlerConfig) (acc : World × List Invocation) (k : Chars)
    (c : CachedRequest) (h : rget acc.1.cache.requests k = some c) :
    rget ((l.foldl (observeStep rt meta) acc).1.cache.requests) k = some c := by
  induction l generalizing acc with
  | nil => exact h
  | cons kv l ih =>
    simp only [List.foldl_cons]
    exact ih _ (requests_observeStep rt meta acc kv k c h)

theorem requests_ensurePatched (wf wj : Nat) (w : World) :
    (ensurePatched wf wj w).cache.requests = w.cache.requests := by
  rw [ensurePatched]
  split <;> rfl

/-- C5: a CachedRequest already stored for a key survives any further
response observation unchanged (the first capture wins); remove purges
the cached request under the key, and a re-add of the same key right
after a remove still finds no cached request for it. -/
theorem c5_capture_once :
    (∀ (rt : RegexTest) (meta : ResponseMeta) (w : World) (k : Chars) (c : CachedRequest),
        rget w.cache.requests k = some c →
        rget (observeJson rt meta w).1.cache.requests k = some c)
    ∧ (∀ (sess : Session) (w : World) (key : Chars),
        rget (remove sess w key).2.cache.requests (fullKeyOf key) = none)
    ∧ (∀ (wf wj hid : Nat) (sess1 sess2 : Session) (w : World) (key : Chars)
        (pat : UrlPattern) (rh : List Chars),
        rget (add wf wj sess2 (remove sess1 w key).2 key pat hid rh).2.1.cache.requests
          (fullKeyOf key) = none) := by
  refine ⟨?_, ?_, ?_⟩
  · intro rt meta w k c h
    exact requests_observeFold rt meta _ _ k c h
  · intro sess w key
    exact rget_rdel_self _ _
  · intro wf wj hid sess1 sess2 w key pat rh
    show rget (ensurePatched wf wj (remove sess1 w key).2).cache.requests (fullKeyOf key) = none
    rw [requests_ensurePatched]
    exact rget_rdel_self _ _

theorem c5_capture_once_witness :
    rget wW5.cache.requests (toL "GET:u") = some crW
    ∧ rget (observeJson rtNone metaW wW5).1.cache.requests (toL "GET:u") = some crW :=
  ⟨by decide, c5_capture_once.1 rtNone metaW wW5 (toL "GET:u") crW (by decide)⟩

theorem c6_patch_idempotent_witness :
    ensurePatched 3 4 (ensurePatched 1 2 (initWorld 5 6)) = ensurePatched 1 2 (initWorld 5 6)
    ∧ (restore (⟨[], [], [], []⟩ : Session) (ensurePatched 1 2 (initWorld 5 6))).2.windowFetch = 5 := by
  have h := c6_patch_idempotent (initWorld 5 6) 1 2 3 4 (by decide)
  exact ⟨h.1, (h.2.2.2 ⟨[], [], [], []⟩ (by decide)).1⟩

theorem c7_restore_scoped_witness :
    rget (restore sessW7 wW7).2.cache.allHandlers (toL "GET:b") = some cfgW
    ∧ (restore sessW7 wW7).2.cache.isPatched = true := by
  have h := c7_restore_scoped sessW7 wW7
  constructor
  · rw [h.1 (toL "GET:b") (by decide)]; decide
  · rw [(h.2.1 (by decide)).1]; decide

/-- C1: the headers of a replayed request are exactly the spread merge
of the session's caller-default headers, the captured request's headers,
and the call-time headers, in that priority order; in particular with
defaults A to 1, cached A to 2 and B to 2, and call-time B to 3, the
effective headers map A to 2 and B to 3. -/
theorem c1_header_merge :
    (∀ (enc : Chars → Chars) (sess : Session) (w : World) (key : Chars)
        (params optHeaders : JsObj Chars) (optBody : Option Chars)
        (c : CachedRequest) (r : FetchRequest),
        rget w.cache.requests (fullKeyOf key) = some c →
        call enc sess w key params optHeaders optBody = .ok r →
        r.headers = rmerge (rmerge sess.defaultHeaders c.headers) optHeaders)
    ∧ (call id sessW1 wW1 (toL "x") [] [(toL "B", toL "3")] none
        = .ok ⟨toL "/p", toL "GET", [(toL "A", toL "2"), (toL "B", toL "3")],
               toL "cors", toL "omit", none⟩)
    ∧ rget (rmerge (rmerge [(toL "A", toL "1")] [(toL "A", toL "2"), (toL "B", toL "2")])
        [(toL "B", toL "3")]) (toL "A") = some (toL "2")
    ∧ rget (rmerge (rmerge [(toL "A", toL "1")] [(toL "A", toL "2"), (toL "B", toL "2")])
        [(toL "B", toL "3")]) (toL "B") = some (toL "3") := by
  refine ⟨?_, ?_, by decide, by decide⟩
  · intro enc sess w key params optHeaders optBody c r hc hr
    simp only [call] at hr
    cases hh : rget sess.handlers (fullKeyOf key) with
    | none => simp only [hh] at hr; cases hr
    | some handler =>
      simp only [hh] at hr
      cases hp : handler.pattern with
      | regex rid => simp only [hp] at hr; cases hr
      | str pat =>
        simp only [hp] at hr
        by_cases hm : (missingOf sess w key optHeaders handler).length > 0
        · rw [if_pos hm] at hr; cases hr
        · rw [if_neg hm] at hr
          cases hr
          show mergedHeadersOf sess w key optHeaders = _
          rw [mergedHeadersOf, hc]
          rfl
  · simp [call, fullKeyOf, parseKey, sessW1, wW1, rget, rmerge, rset, isFalsyStr, toL,
      buildUrl, repTok, truthyBody, missingOf, mergedHeadersOf]

theorem c1_header_merge_witness :
    (⟨toL "/p", toL "GET", [(toL "A", toL "2"), (toL "B", toL "3")],
      toL "cors", toL "omit", none⟩ : FetchRequest).headers
      = rmerge (rmerge sessW1.defaultHeaders [(toL "A", toL "2"), (toL "B", toL "2")])
          [(toL "B", toL "3")] :=
  c1_header_merge.1 id sessW1 wW1 (toL "x") [] [(toL "B", toL "3")] none
    ⟨toL "/p", toL "GET", [(toL "A", toL "2"), (toL "B", toL "2")], none⟩ _
    (by decide) c1_header_merge.2.1

/-- C3: each of the three replay preconditions produces the dedicated
synchronous error, and an erroring call issues no network request at
all. -/
theorem c3_fail_before_fetch :
    (∀ (enc : Chars → Chars) (sess : Session) (w : World) (key : Chars)
        (params optHeaders : JsObj Chars) (optBody : Option Chars),
        rget sess.handlers (fullKeyOf key) = none →
        call enc sess w key params optHeaders optBody
          = .error (.unknownHandler (fullKeyOf key)))
    ∧ (∀ (enc : Chars → Chars) (sess : Session) (w : World) (key : Chars)
        (params optHeaders : JsObj Chars) (optBody : Option Chars)
        (h : HandlerConfig) (rid : Nat),
        rget sess.handlers (fullKeyOf key) = some h →
        h.pattern = .regex rid →
        call enc sess w key params optHeaders optBody
          = .error (.unsupportedPattern (fullKeyOf key)))
    ∧ (∀ (enc : Chars → Chars) (sess : Session) (w : World) (key : Chars)
        (params optHeaders : JsObj Chars) (optBody : Option Chars)
        (h : HandlerConfig) (pat : Chars),
        rget sess.handlers (fullKeyOf key) = some h →
        h.pattern = .str pat →
        (∃ n ∈ h.requiredHeaders,
            rget (mergedHeadersOf sess w key optHeaders) n = none) →
        ∃ m, call enc sess w key params optHeaders optBody
            = .error (.missingRequiredHeaders (fullKeyOf key) m))
    ∧ (∀ (enc : Chars → Chars) (sess : Session) (w : World) (key : Chars)
        (params optHeaders : JsObj Chars) (optBody : Option Chars) (e : CallError),
        call enc sess w key params optHeaders optBody = .error e →
        callRequests enc sess w key params optHeaders optBody = []) := by
  refine ⟨?_, ?_, ?_, ?_⟩
  · intro enc sess w key params optHeaders optBody hh
    simp [call, hh]
  · intro enc sess w key params optHeaders optBody h rid hh hp
    simp [call, hh, hp]
  · intro enc sess w key params optHeaders optBody h pat hh hp hns
    obtain ⟨n, hn, hnone⟩ := hns
    have hreq : h.requiredHeaders.length > 0 :=
      List.length_pos.mpr (List.ne_nil_of_mem hn)
    have hfil : n ∈ h.requiredHeaders.filter
        (fun x => isFalsyStr (rget (mergedHeadersOf sess w key optHeaders) x)) :=
      List.mem_filter.mpr ⟨hn, by rw [hnone]; rfl⟩
    have hmiss : (missingOf sess w key optHeaders h).length > 0 := by
      rw [missingOf, if_pos hreq]
      exact List.length_pos.mpr (List.ne_nil_of_mem hfil)
    exact ⟨missingOf sess w key optHeaders h, by simp [call, hh, hp, if_pos hmiss]⟩
  · intro enc sess w key params optHeaders optBody e hr
    simp only [callRequests, hr]

theorem c3_fail_before_fetch_witness :
    call id (⟨[], [], [], []⟩ : Session) (initWorld 0 0) (toL "x") [] [] none
      = .error (.unknownHandler (toL "GET:x"))
    ∧ callRequests id (⟨[], [], [], []⟩ : Session) (initWorld 0 0) (toL "x") [] [] none
      = [] := by
  have h1 := c3_fail_before_fetch.1 id ⟨[], [], [], []⟩ (initWorld 0 0)
    (toL "x") [] [] none (by decide)
  exact ⟨h1, c3_fail_before_fetch.2.2.2 id ⟨[], [], [], []⟩ (initWorld 0 0)
    (toL "x") [] [] none _ h1⟩

/-- C4 counterexample: a required header that is present in the merged
map with the empty string as its value still counts as missing, because
the source tests truthiness and not presence — the call throws
MissingRequiredHeaders although the header is present. -/
theorem c4_required_headers_cex :
    call id sessW4 (initWorld 0 0) (toL "x") [] [(toL "A", [])] none
      = .error (.missingRequiredHeaders (toL "GET:x") [toL "A"])
    ∧ rget (mergedHeadersOf sessW4 (initWorld 0 0) (toL "x") [(toL "A", [])]) (toL "A")
        = some [] := by
  constructor
  · simp [call, sessW4, fullKeyOf, parseKey, toL, missingOf, mergedHeadersOf,
      rget, rmerge, rset, isFalsyStr]
  · decide

/-- C4 amended: a call on a registered string-pattern handler with a
nonempty required-headers list fails with MissingRequiredHeaders exactly
when some required header name has a falsy value in the merged header
map, that is, is absent or maps to the empty string; a required header
present with a nonempty value never counts as missing. -/
theorem c4_missing_required_falsy :
    ∀ (enc : Chars → Chars) (sess : Session) (w : World) (key : Chars)
      (params optHeaders : JsObj Chars) (optBody : Option Chars)
      (h : HandlerConfig) (pat : Chars),
      rget sess.handlers (fullKeyOf key) = some h →
      h.pattern = .str pat →
      h.requiredHeaders ≠ [] →
      ((∃ m, call enc sess w key params optHeaders optBody
          = .error (.missingRequiredHeaders (fullKeyOf key) m))
        ↔ ∃ n ∈ h.requiredHeaders,
            isFalsyStr (rget (mergedHeadersOf sess w key optHeaders) n) = true) := by
  intro enc sess w key params optHeaders optBody h pat hh hp hne
  have hreq : h.requiredHeaders.length > 0 := List.length_pos.mpr hne
  constructor
  · rintro ⟨m, hm⟩
    simp only [call, hh, hp] at hm
    by_cases hl : (missingOf sess w key optHeaders h).length > 0
    · have hnil : (missingOf sess w key optHeaders h) ≠ [] := by
        intro he; rw [he] at hl; exact absurd hl (by simp)
      rw [missingOf, if_pos hreq] at hnil
      obtain ⟨n, hnmem⟩ := List.exists_mem_of_ne_nil _ hnil
      exact ⟨n, (List.mem_filter.mp hnmem).1, (List.mem_filter.mp hnmem).2⟩
    · rw [if_neg hl] at hm; cases hm
  · rintro ⟨n, hn, hfal⟩
    have hfil : n ∈ h.requiredHeaders.filter
        (fun x => isFalsyStr (rget (mergedHeadersOf sess w key optHeaders) x)) :=
      List.mem_filter.mpr ⟨hn, hfal⟩
    have hmiss : (missingOf sess w key optHeaders h).length > 0 := by
      rw [missingOf, if_pos hreq]
      exact List.length_pos.mpr (List.ne_nil_of_mem hfil)
    exact ⟨missingOf sess w key optHeaders h, by simp [call, hh, hp, if_pos hmiss]⟩

theorem c4_missing_required_falsy_witness :
    ∃ m, call id sessW4 (initWorld 0 0) (toL "x") [] [] none
        = .error (.missingRequiredHeaders (fullKeyOf (toL "x")) m) := by
  refine (c4_missing_required_falsy id sessW4 (initWorld 0 0) (toL "x") [] [] none
    ⟨.str (toL "/p"), 0, toL "GET", [toL "A"], []⟩ (toL "/p")
    (by decide) (by decide) (by decide)).mpr ?_
  exact ⟨toL "A", by decide, by decide⟩

/-! ### Claims about the pattern matcher -/

/-- C9: a plain string pattern — not a regex, and with no colon in its
query-stripped text — matches exactly when its query-stripped text is a
substring of the base-path-stripped, query-stripped url path, and a
successful match carries an empty params map. -/
theorem c9_substring_match :
    ∀ (nbp : Chars) (rt : RegexTest) (url p : Chars),
      (stripQuery p).contains ':' = false →
      (((matchPattern nbp rt url (.str p)).isSome = true ↔
          substrOf (stripQuery p) (stripQuery (dropBase nbp url)))
        ∧ ∀ ps, matchPattern nbp rt url (.str p) = some ps → ps = []) := by
  intro nbp rt url p hc
  simp only [matchPattern, hc, Bool.false_eq_true, if_false]
  constructor
  · by_cases hj : jsIncludes (stripQuery (dropBase nbp url)) (stripQuery p)
    · simp only [hj, if_true, Option.isSome_some, true_iff]
      exact (jsIncludes_iff_substrOf _ _).mp hj
    · simp only [hj, Bool.false_eq_true, if_false, Option.isSome_none,
        Bool.false_eq_true, false_iff]
      intro hs
      exact absurd ((jsIncludes_iff_substrOf _ _).mpr hs) (by simpa using hj)
  · intro ps hps
    by_cases hj : jsIncludes (stripQuery (dropBase nbp url)) (stripQuery p)
    · rw [if_pos hj] at hps
      exact (Option.some_inj.mp hps).symm
    · rw [if_neg hj] at hps
      cases hps

theorem c9_substring_match_witness :
    (matchPattern [] rtNone (toL "xay") (.str (toL "a"))).isSome = true :=
  (c9_substring_match [] rtNone (toL "xay") (toL "a") (by decide)).1.mpr
    ⟨toL "x", toL "y", by decide⟩

/-! ### Lemmas about the tokenized segment walk -/

theorem token_shape (p : Chars) (h : isToken p = true) : p = ':' :: p.drop 1 := by
  cases p with
  | nil => cases h
  | cons c cs =>
    have : c = ':' := by simpa [isToken] using h
    simp [this]

theorem walkSegs_nil_right (p : Chars) (ps : List Chars) (acc : JsObj Chars) :
    walkSegs (p :: ps) [] acc = none := rfl

theorem walkSegs_nil_left (u : Chars) (us : List Chars) (acc : JsObj Chars) :
    walkSegs [] (u :: us) acc = none := rfl

theorem walkSegs_isSome_iff (ps : List Chars) :
    ∀ (us : List Chars) (acc : JsObj Chars),
      (walkSegs ps us acc).isSome = true ↔
        List.Forall₂ (fun p u => isToken p = true ∨ p = u) ps us := by
  induction ps with
  | nil =>
    intro us acc
    cases us with
    | nil => simp [walkSegs]
    | cons u us => simp [walkSegs_nil_left, List.forall₂_nil_left_iff]
  | cons p ps ih =>
    intro us acc
    cases us with
    | nil => simp [walkSegs_nil_right, List.forall₂_nil_right_iff]
    | cons u us =>
      rw [walkSegs, List.forall₂_cons]
      by_cases ht : isToken p
      · simp only [ht, if_true, true_or, true_and]
        exact ih us (rset acc (p.drop 1) u)
      · rw [if_neg ht]
        by_cases heq : p = u
        · simp only [heq, if_pos rfl, or_true, true_and]
          exact ih us acc
        · rw [if_neg heq]
          constructor
          · intro hs; exact absurd hs (by simp)
          · intro hcon
            rcases hcon.1 with hl | hr
            · exact absurd hl ht
            · exact absurd hr heq

theorem walkSegs_rget_of_no_token (ps : List Chars) :
    ∀ (us : List Chars) (acc prs : JsObj Chars) (name : Chars),
      walkSegs ps us acc = some prs →
      (∀ j (hj : j < ps.length), ps.get ⟨j, hj⟩ ≠ ':' :: name) →
      rget prs name = rget acc name := by
  induction ps with
  | nil =>
    intro us acc prs name hw _
    cases us with
    | nil =>
      rw [walkSegs] at hw
      rw [Option.some_inj.mp hw.symm]
    | cons u us => cases hw
  | cons p ps ih =>
    intro us acc prs name hw hno
    cases us with
    | nil => cases hw
    | cons u us =>
      rw [walkSegs] at hw
      have hno' : ∀ j (hj : j < ps.length), ps.get ⟨j, hj⟩ ≠ ':' :: name := by
        intro j hj
        have := hno (j + 1) (by simpa using Nat.succ_lt_succ hj)
        simpa using this
      by_cases ht : isToken p
      · rw [if_pos ht] at hw
        have hname : p.drop 1 ≠ name := by
          intro he
          exact hno 0 (by simp) (by rw [List.get]; rw [← he]; exact token_shape p ht)
        rw [ih us (rset acc (p.drop 1) u) prs name hw hno']
        exact rget_rset_ne acc (p.drop 1) name u (Ne.symm hname)
      · rw [if_neg ht] at hw
        by_cases heq : p = u
        · rw [if_pos heq] at hw
          exact ih us acc prs name hw hno'
        · rw [if_neg heq] at hw
          cases hw

theorem walkSegs_rget_last_token (ps : List Chars) :
    ∀ (us : List Chars) (acc prs : JsObj Chars),
      walkSegs ps us acc = some prs →
      ∀ (i : Nat) (name : Chars) (h1 : i < ps.length) (h2 : i < us.length),
        ps.get ⟨i, h1⟩ = ':' :: name →
        (∀ j (hj : j < ps.length), i < j → ps.get ⟨j, hj⟩ ≠ ':' :: name) →
        rget prs name = some (us.get ⟨i, h2⟩) := by
  induction ps with
  | nil =>
    intro us acc prs hw i name h1
    exact absurd h1 (by simp)
  | cons p ps ih =>
    intro us acc prs hw i name h1 h2 htok hlast
    cases us with
    | nil => cases hw
    | cons u us =>
      rw [walkSegs] at hw
      cases i with
      | zero =>
        have hp : p = ':' :: name := by simpa using htok
        have ht : isToken p = true := by rw [hp]; rfl
        rw [if_pos ht] at hw
        have hdrop : p.drop 1 = name := by rw [hp]; rfl
        have hno' : ∀ j (hj : j < ps.length), ps.get ⟨j, hj⟩ ≠ ':' :: name := by
          intro j hj
          have := hlast (j + 1) (by simpa using Nat.succ_lt_succ hj) (by omega)
          simpa using this
        rw [walkSegs_rget_of_no_token ps us _ prs name hw hno', hdrop]
        simpa using rget_rset_self acc name u
      | succ i' =>
        have h1' : i' < ps.length := by simpa using h1
        have h2' : i' < us.length := by simpa using h2
        have htok' : ps.get ⟨i', h1'⟩ = ':' :: name := by simpa using htok
        have hlast' : ∀ j (hj : j < ps.length), i' < j → ps.get ⟨j, hj⟩ ≠ ':' :: name := by
          intro j hj hij
          have := hlast (j + 1) (by simpa using Nat.succ_lt_succ hj) (by omega)
          simpa using this
        by_cases ht : isToken p
        · rw [if_pos ht] at hw
          simpa using ih us (rset acc (p.drop 1) u) prs hw i' name h1' h2' htok' hlast'
        · rw [if_neg ht] at hw
          by_cases heq : p = u
          · rw [if_pos heq] at hw
            simpa using ih us acc prs hw i' name h1' h2' htok' hlast'
          · rw [if_neg heq] at hw
            cases hw

theorem mem_join_of_mem_part (sep : Char) (parts : List Chars) (s : Chars) (c : Char)
    (hs : s ∈ parts) (hc : c ∈ s) : c ∈ joinSep sep parts := by
  induction parts with
  | nil => cases hs
  | cons x xs ih =>
    rcases List.mem_cons.mp hs with rfl | hs'
    · cases xs with
      | nil => simpa [joinSep] using hc
      | cons y ys =>
        simp only [joinSep, List.mem_append]
        exact Or.inl hc
    · cases xs with
      | nil => cases hs'
      | cons y ys =>
        simp only [joinSep, List.mem_append, List.mem_cons]
        exact Or.inr (Or.inr (ih hs'))

/-- C2: for a string pattern containing a token segment, the match
succeeds exactly when the base-path-stripped, query-stripped url path
has the same number of slash segments as the query-stripped pattern and
every non-token pattern segment equals the corresponding url segment
exactly; on success every token segment binds its name (for its last
occurrence) to the raw text of the corresponding url segment. -/
theorem c2_tokenized_match :
    ∀ (nbp : Chars) (rt : RegexTest) (url pat : Chars),
      (∃ s ∈ splitChar '/' (stripQuery pat), isToken s = true) →
      (((matchPattern nbp rt url (.str pat)).isSome = true ↔
          ((splitChar '/' (stripQuery pat)).length
              = (splitChar '/' (stripQuery (dropBase nbp url))).length
            ∧ ∀ (i : Nat) (h1 : i < (splitChar '/' (stripQuery pat)).length)
                (h2 : i < (splitChar '/' (stripQuery (dropBase nbp url))).length),
                isToken ((splitChar '/' (stripQuery pat)).get ⟨i, h1⟩) = true
                ∨ (splitChar '/' (stripQuery pat)).get ⟨i, h1⟩
                    = (splitChar '/' (stripQuery (dropBase nbp url))).get ⟨i, h2⟩))
        ∧ ∀ prs, matchPattern nbp rt url (.str pat) = some prs →
            ∀ (i : Nat) (name : Chars)
              (h1 : i < (splitChar '/' (stripQuery pat)).length)
              (h2 : i < (splitChar '/' (stripQuery (dropBase nbp url))).length),
              (splitChar '/' (stripQuery pat)).get ⟨i, h1⟩ = ':' :: name →
              (∀ j (hj : j < (splitChar '/' (stripQuery pat)).length), i < j →
                  (splitChar '/' (stripQuery pat)).get ⟨j, hj⟩ ≠ ':' :: name) →
              rget prs name
                = some ((splitChar '/' (stripQuery (dropBase nbp url))).get ⟨i, h2⟩)) := by
  intro nbp rt url pat htokex
  obtain ⟨s, hs, hst⟩ := htokex
  have hcol : ':' ∈ s := by
    rw [token_shape s hst]
    exact List.mem_cons_self _ _
  have hmem : ':' ∈ stripQuery pat := by
    rw [← joinSep_splitChar '/' (stripQuery pat)]
    exact mem_join_of_mem_part '/' _ s ':' hs hcol
  have hcontain : (stripQuery pat).contains ':' = true := contains_of_mem _ _ hmem
  constructor
  · simp only [matchPattern, hcontain, if_true]
    by_cases hlen : (splitChar '/' (stripQuery pat)).length
        ≠ (splitChar '/' (stripQuery (dropBase nbp url))).length
    · rw [if_pos hlen]
      simp only [Option.isSome_none, Bool.false_eq_true, false_iff]
      intro hcon
      exact hlen hcon.1
    · rw [if_neg hlen]
      rw [walkSegs_isSome_iff, List.forall₂_iff_get]
  · intro prs hm
    simp only [matchPattern, hcontain, if_true] at hm
    by_cases hlen : (splitChar '/' (stripQuery pat)).length
        ≠ (splitChar '/' (stripQuery (dropBase nbp url))).length
    · rw [if_pos hlen] at hm; cases hm
    · rw [if_neg hlen] at hm
      exact walkSegs_rget_last_token _ _ _ _ hm

theorem c2_tokenized_match_witness :
    rget [(toL "id", toL "42")] (toL "id") = some (toL "42") :=
  (c2_tokenized_match [] rtNone (toL "/users/42") (toL "/users/:id")
      ⟨toL ":id", by decide, by decide⟩).2
    [(toL "id", toL "42")] (by decide) 2 (toL "id") (by decide) (by decide)
    (by decide)
    (fun j hj hlt => absurd hlt (by
      have h3 : (splitChar '/' (stripQuery (toL "/users/:id"))).length = 3 := by decide
      omega))

theorem repTok_nil (q : JsObj Chars) : repTok [] q = ([], q) := by
  simp [repTok]

theorem repTok_cons_ne (c : Char) (rest : Chars) (q : JsObj Chars) (h : c ≠ ':') :
    repTok (c :: rest) q = (c :: (repTok rest q).1, (repTok rest q).2) := by
  rw [repTok, if_neg h]

theorem repTok_append_noColon (xs : Chars) :
    ∀ (rest : Chars) (q : JsObj Chars), xs.contains ':' = false →
      repTok (xs ++ rest) q = (xs ++ (repTok rest q).1, (repTok rest q).2) := by
  induction xs with
  | nil => intro rest q _; simp
  | cons c cs ih =>
    intro rest q h
    simp only [List.contains_cons, Bool.or_eq_false_iff] at h
    have hc : c ≠ ':' := by
      intro he
      subst he
      simpa using h.1
    rw [List.cons_append, repTok_cons_ne c (cs ++ rest) q hc, ih rest q h.2]
    simp

theorem repTok_noColon (xs : Chars) (q : JsObj Chars) (h : xs.contains ':' = false) :
    repTok xs q = (xs, q) := by
  have := repTok_append_noColon xs [] q h
  simpa [repTok_nil] using this

theorem takeWhile_append_word (name rest : Chars)
    (h1 : name.all isWordChar = true)
    (h2 : rest = [] ∨ ∃ d ds, rest = d :: ds ∧ isWordChar d = false) :
    (name ++ rest).takeWhile isWordChar = name := by
  induction name with
  | nil =>
    rcases h2 with rfl | ⟨d, ds, rfl, hd⟩
    · rfl
    · simp [List.takeWhile_cons, hd]
  | cons a as ih =>
    simp only [List.all_cons, Bool.and_eq_true] at h1
    simp [List.takeWhile_cons, h1.1, ih h1.2]

theorem repTok_token (name rest : Chars) (q : JsObj Chars) (v : Chars)
    (hne : name ≠ []) (hw : name.all isWordChar = true)
    (h2 : rest = [] ∨ ∃ d ds, rest = d :: ds ∧ isWordChar d = false)
    (hq : rget q name = some v) :
    repTok (':' :: (name ++ rest)) q
      = (v ++ (repTok rest (rdel q name)).1, (repTok rest (rdel q name)).2) := by
  have htw := takeWhile_append_word name rest hw h2
  have hie : name.isEmpty = false := by
    cases name with
    | nil => exact absurd rfl hne
    | cons a as => rfl
  rw [repTok, if_pos rfl]
  simp only [htw, hie, Bool.false_eq_true, if_false, hq, List.drop_left]

theorem tokenNames_cons_tok (p : Chars) (ps : List Chars) (h : isToken p = true) :
    tokenNames (p :: ps) = p.drop 1 :: tokenNames ps := by
  simp [tokenNames, List.filter_cons, h]

theorem tokenNames_cons_lit (p : Chars) (ps : List Chars) (h : isToken p = false) :
    tokenNames (p :: ps) = tokenNames ps := by
  simp [tokenNames, List.filter_cons, h]

theorem tokenBinds_cons_tok (p u : Chars) (ps us : List Chars) (h : isToken p = true) :
    tokenBinds (p :: ps) (u :: us) = (p.drop 1, u) :: tokenBinds ps us := by
  rw [tokenBinds, if_pos h]

theorem tokenBinds_cons_lit (p u : Chars) (ps us : List Chars) (h : isToken p = false) :
    tokenBinds (p :: ps) (u :: us) = tokenBinds ps us := by
  rw [tokenBinds, if_neg (by simp [h])]

theorem isToken_false_of_noColon (s : Chars) (h : s.contains ':' = false) :
    isToken s = false := by
  cases s with
  | nil => rfl
  | cons c cs =>
    simp only [List.contains_cons, Bool.or_eq_false_iff] at h
    have : ¬(c = ':') := by
      intro he; subst he; simpa using h.1
    simpa [isToken] using this

theorem walkSegs_eq_foldBinds (ps : List Chars) :
    ∀ (us : List Chars) (acc prs : JsObj Chars),
      walkSegs ps us acc = some prs →
      prs = (tokenBinds ps us).foldl (fun a p => rset a p.1 p.2) acc := by
  induction ps with
  | nil =>
    intro us acc prs hw
    cases us with
    | nil =>
      rw [walkSegs] at hw
      rw [← Option.some_inj.mp hw]
      rfl
    | cons u us => cases hw
  | cons p ps ih =>
    intro us acc prs hw
    cases us with
    | nil => cases hw
    | cons u us =>
      rw [walkSegs] at hw
      by_cases ht : isToken p
      · rw [if_pos ht] at hw
        rw [tokenBinds_cons_tok p u ps us ht, List.foldl_cons]
        exact ih us (rset acc (p.drop 1) u) prs hw
      · rw [if_neg ht] at hw
        by_cases heq : p = u
        · rw [if_pos heq] at hw
          rw [tokenBinds_cons_lit p u ps us (by simpa using ht)]
          exact ih us acc prs hw
        · rw [if_neg heq] at hw
          cases hw

theorem rget_append {α : Type} (a b : JsObj α) (k : Chars) :
    rget (a ++ b) k
      = match rget a k with
        | some v => some v
        | none => rget b k := by
  induction a with
  | nil => rfl
  | cons p a ih =>
    by_cases h : p.1 = k
    · simp [rget, h]
    · simp [rget, h, ih]

theorem rset_eq_append_of_none {α : Type} (a : JsObj α) (k : Chars) (v : α)
    (h : rget a k = none) : rset a k v = a ++ [(k, v)] := by
  induction a with
  | nil => rfl
  | cons p a ih =>
    rw [rget] at h
    by_cases hp : p.1 = k
    · rw [if_pos hp] at h; cases h
    · rw [if_neg hp] at h
      rw [rset, if_neg hp, ih h]
      rfl

theorem foldl_rset_eq_append (binds : JsObj Chars) :
    ∀ (a : JsObj Chars),
      (∀ p ∈ binds, rget a p.1 = none) →
      (binds.map (fun p => p.1)).Nodup →
      binds.foldl (fun a p => rset a p.1 p.2) a = a ++ binds := by
  induction binds with
  | nil => intro a _ _; simp
  | cons b bs ih =>
    intro a hnone hnd
    simp only [List.foldl_cons]
    rw [rset_eq_append_of_none a b.1 b.2 (hnone b (List.mem_cons_self b bs))]
    rw [List.map_cons, List.nodup_cons] at hnd
    rw [ih (a ++ [b]) ?_ hnd.2]
    · simp
    · intro p hp
      rw [rget_append, hnone p (List.mem_cons_of_mem b hp)]
      have hne : p.1 ≠ b.1 := by
        intro he
        exact hnd.1 (he ▸ List.mem_map_of_mem (fun x => x.1) hp)
      have hbp : ¬(b.1 = p.1) := fun hc => hne hc.symm
      simp [rget, hbp]

theorem rget_of_mem_nodup (l : JsObj Chars) :
    ∀ (p : Chars × Chars), p ∈ l → (l.map (fun x => x.1)).Nodup →
      rget l p.1 = some p.2 := by
  induction l with
  | nil => intro p hp _; cases hp
  | cons q l ih =>
    intro p hp hnd
    rw [List.map_cons, List.nodup_cons] at hnd
    rcases List.mem_cons.mp hp with rfl | hp'
    · simp [rget]
    · have hne : q.1 ≠ p.1 := by
        intro he
        exact hnd.1 (he ▸ List.mem_map_of_mem (fun x => x.1) hp')
      rw [rget, if_neg hne]
      exact ih p hp' hnd.2

theorem tokenBinds_keys (ps : List Chars) :
    ∀ (us : List Chars), ps.length = us.length →
      (tokenBinds ps us).map (fun p => p.1) = tokenNames ps := by
  induction ps with
  | nil =>
    intro us hlen
    cases us with
    | nil => rfl
    | cons u us => cases hlen
  | cons p ps ih =>
    intro us hlen
    cases us with
    | nil => cases hlen
    | cons u us =>
      have hlen' : ps.length = us.length := by simpa using hlen
      by_cases ht : isToken p
      · rw [tokenBinds_cons_tok p u ps us ht, tokenNames_cons_tok p ps ht,
          List.map_cons, ih us hlen']
      · rw [tokenBinds_cons_lit p u ps us (by simpa using ht),
          tokenNames_cons_lit p ps (by simpa using ht), ih us hlen']

theorem rdelAll_eq_filter (names : List Chars) :
    ∀ (q : JsObj Chars),
      rdelAll q names = q.filter (fun p => !(names.contains p.1)) := by
  induction names with
  | nil =>
    intro q
    simp [rdelAll, List.filter_true]
  | cons n ns ih =>
    intro q
    have e1 : rdelAll q (n :: ns) = rdelAll (rdel q n) ns := rfl
    rw [e1, ih (rdel q n), rdel_eq_filter, List.filter_filter]
    apply List.filter_congr
    intro p _
    by_cases h1 : p.1 = n
    · simp [h1]
    · simp [h1, bne_iff_ne, Ne.symm]

theorem rdelAll_all_mem (q : JsObj Chars) (names : List Chars)
    (h : ∀ p ∈ q, names.contains p.1 = true) : rdelAll q names = [] := by
  rw [rdelAll_eq_filter]
  apply List.filter_eq_nil_iff.mpr
  intro p hp
  have hm := List.elem_iff.mp (h p hp)
  simp [hm]

theorem mem_joinSep_cases (sep : Char) (parts : List Chars) (c : Char) :
    c ∈ joinSep sep parts → c = sep ∨ ∃ s ∈ parts, c ∈ s := by
  induction parts with
  | nil => intro h; cases h
  | cons x xs ih =>
    intro h
    cases xs with
    | nil => exact Or.inr ⟨x, List.mem_cons_self x [], h⟩
    | cons y ys =>
      rw [joinSep] at h
      rcases List.mem_append.mp h with hx | hrest
      · exact Or.inr ⟨x, List.mem_cons_self x (y :: ys), hx⟩
      · rcases List.mem_cons.mp hrest with rfl | hj
        · exact Or.inl rfl
        · rcases ih hj with hsep | ⟨s, hs, hcs⟩
          · exact Or.inl hsep
          · exact Or.inr ⟨s, List.mem_cons_of_mem x hs, hcs⟩

/-- The heart of the round trip: replaying the token replacement over a
slash-joined segment list whose literal segments are colon-free and
whose token segments are well-formed with pairwise distinct names,
against a bag binding exactly those names, reproduces the url segments
and consumes exactly the token names. -/
theorem repTok_segments (ps us : List Chars)
    (hrel : List.Forall₂
      (fun p u => (isLitSeg p = true ∧ p = u) ∨ isTokSeg p = true) ps us) :
    ∀ (q : JsObj Chars),
      (tokenNames ps).Nodup →
      (∀ pr ∈ tokenBinds ps us, rget q pr.1 = some pr.2) →
      repTok (joinSep '/' ps) q = (joinSep '/' us, rdelAll q (tokenNames ps)) := by
  induction hrel with
  | nil =>
    intro q _ _
    simp [joinSep, repTok_nil, rdelAll, tokenNames]
  | @cons p u ps us hpu htail ih =>
    intro q hnd hq
    rcases hpu with ⟨hlit, rfl⟩ | htokseg
    · -- literal head, and u is p
      have hcolfree : p.contains ':' = false := by
        simp only [isLitSeg, Bool.and_eq_true, Bool.not_eq_true'] at hlit
        exact hlit.1
      have htokfalse : isToken p = false := isToken_false_of_noColon p hcolfree
      have hnd' : (tokenNames ps).Nodup := by
        rwa [tokenNames_cons_lit p ps htokfalse] at hnd
      cases htail with
      | nil =>
        show repTok (joinSep '/' [p]) q = _
        rw [show joinSep '/' [p] = p from rfl, repTok_noColon p q hcolfree,
          tokenNames_cons_lit p [] htokfalse]
        rfl
      | @cons p2 u2 ps2 us2 hpu2 htail2 =>
        have hq' : ∀ pr ∈ tokenBinds (p2 :: ps2) (u2 :: us2), rget q pr.1 = some pr.2 := by
          intro pr hpr
          exact hq pr (by rwa [tokenBinds_cons_lit p p (p2 :: ps2) (u2 :: us2) htokfalse])
        have e1 : joinSep '/' (p :: p2 :: ps2) = p ++ '/' :: joinSep '/' (p2 :: ps2) := rfl
        rw [e1, repTok_append_noColon p _ q hcolfree,
          repTok_cons_ne '/' _ q (by decide),
          ih q hnd' hq',
          tokenNames_cons_lit p (p2 :: ps2) htokfalse]
        rfl
    · -- token head
      have ht : isToken p = true := by
        simp only [isTokSeg, Bool.and_eq_true] at htokseg
        exact htokseg.1.1
      have hname_ne : p.drop 1 ≠ [] := by
        simp only [isTokSeg, Bool.and_eq_true, Bool.not_eq_true'] at htokseg
        exact fun he => by
          rw [he] at htokseg
          simpa using htokseg.1.2
      have hword : (p.drop 1).all isWordChar = true := by
        simp only [isTokSeg, Bool.and_eq_true] at htokseg
        exact htokseg.2
      have hp : p = ':' :: p.drop 1 := token_shape p ht
      have hnd2 := hnd
      rw [tokenNames_cons_tok p ps ht, List.nodup_cons] at hnd2
      have hqhead : rget q (p.drop 1) = some u := by
        apply hq (p.drop 1, u)
        rw [tokenBinds_cons_tok p u ps us ht]
        exact List.mem_cons_self _ _
      cases htail with
      | nil =>
        have e1 : joinSep '/' [p] = ':' :: (p.drop 1 ++ []) := by
          rw [show joinSep '/' [p] = p from rfl, List.append_nil]
          exact hp
        rw [e1, repTok_token (p.drop 1) [] q u hname_ne hword (Or.inl rfl) hqhead,
          repTok_nil, tokenNames_cons_tok p [] ht]
        simp [rdelAll, joinSep, tokenNames]
      | @cons p2 u2 ps2 us2 hpu2 htail2 =>
        have hq' : ∀ pr ∈ tokenBinds (p2 :: ps2) (u2 :: us2),
            rget (rdel q (p.drop 1)) pr.1 = some pr.2 := by
          intro pr hpr
          have hlen : (p2 :: ps2).length = (u2 :: us2).length :=
            List.Forall₂.length_eq (List.Forall₂.cons hpu2 htail2)
          have hkey : pr.1 ∈ tokenNames (p2 :: ps2) := by
            rw [← tokenBinds_keys (p2 :: ps2) (u2 :: us2) hlen]
            exact List.mem_map_of_mem (fun x => x.1) hpr
          have hne : pr.1 ≠ p.drop 1 := by
            intro he
            exact hnd2.1 (he ▸ hkey)
          rw [rget_rdel_ne q (p.drop 1) pr.1 hne]
          apply hq pr
          rw [tokenBinds_cons_tok p u (p2 :: ps2) (u2 :: us2) ht]
          exact List.mem_cons_of_mem _ hpr
        have e1 : joinSep '/' (p :: p2 :: ps2)
            = ':' :: (p.drop 1 ++ '/' :: joinSep '/' (p2 :: ps2)) := by
          show p ++ '/' :: joinSep '/' (p2 :: ps2) = _
          rw [hp]
          rfl
        rw [e1, repTok_token (p.drop 1) ('/' :: joinSep '/' (p2 :: ps2)) q u
            hname_ne hword (Or.inr ⟨'/', joinSep '/' (p2 :: ps2), rfl, by decide⟩) hqhead,
          repTok_cons_ne '/' _ _ (by decide),
          ih (rdel q (p.drop 1)) hnd2.2 hq',
          tokenNames_cons_tok p (p2 :: ps2) ht]
        rfl

/-- C10 counterexample: the round trip fails as stated.  First, a
pattern whose literal segment carries a question mark — the segments are
a colon-free literal and a whole token, yet the query stripping sends
the matcher into the substring branch and buildUrl does not reproduce
the url.  Second, a pattern whose segments are all literals matches by
substring containment anywhere, so buildUrl need not reproduce the
url either. -/
theorem c10_roundtrip_cex :
    (splitChar '/' (toL "/a?b/:x") = [[], toL "a?b", toL ":x"]
      ∧ matchPattern [] rtNone (toL "/a") (.str (toL "/a?b/:x")) = some []
      ∧ buildUrl id [] (toL "/a?b/:x") [] ≠ toL "/a")
    ∧ (matchPattern [] rtNone (toL "ba") (.str (toL "a")) = some []
      ∧ buildUrl id [] (toL "a") [] ≠ toL "ba") := by
  refine ⟨⟨by decide, by decide, ?_⟩, by decide, ?_⟩
  · have he : buildUrl id [] (toL "/a?b/:x") [] = toL "/a?b/:x" := by
      simp [buildUrl, repTok, rget, isWordChar, toL]
    rw [he]; decide
  · have he : buildUrl id [] (toL "a") [] = toL "a" := by
      simp [buildUrl, repTok, isWordChar, toL]
    rw [he]; decide

/-- C10 amended: for a colon-free base path, a pattern whose slash
segments are either colon- and question-mark-free literals or whole
well-formed tokens, with at least one token and pairwise distinct token
names, and a question-mark-free url that starts with the base path, a
successful match feeds buildUrl exactly the params that reproduce the
original url, with no query string appended. -/
theorem c10_match_build_roundtrip
    (enc : Chars → Chars) (rt : RegexTest) (nbp url pat : Chars) (prs : JsObj Chars)
    (hbp : nbp.contains ':' = false)
    (hsegs : ∀ s ∈ splitChar '/' pat, isLitSeg s = true ∨ isTokSeg s = true)
    (htokex : ∃ s ∈ splitChar '/' pat, isTokSeg s = true)
    (hnd : (tokenNames (splitChar '/' pat)).Nodup)
    (hurl : url.contains '?' = false)
    (hpre : nbp.isPrefixOf url = true)
    (hm : matchPattern nbp rt url (.str pat) = some prs) :
    buildUrl enc nbp pat prs = url := by
  have hpatq : pat.contains '?' = false := by
    rw [not_contains_iff]
    intro hmem
    rw [← joinSep_splitChar '/' pat] at hmem
    rcases mem_joinSep_cases '/' _ '?' hmem with h1 | ⟨s, hs, hcs⟩
    · exact absurd h1 (by decide)
    · rcases hsegs s hs with hl | htk
      · simp only [isLitSeg, Bool.and_eq_true, Bool.not_eq_true'] at hl
        exact absurd (contains_of_mem s '?' hcs) (by rw [hl.2]; simp)
      · have ht : isToken s = true := by
          simp only [isTokSeg, Bool.and_eq_true] at htk
          exact htk.1.1
        rw [token_shape s ht] at hcs
        rcases List.mem_cons.mp hcs with he | hname
        · exact absurd he (by decide)
        · have hw : (s.drop 1).all isWordChar = true := by
            simp only [isTokSeg, Bool.and_eq_true] at htk
            exact htk.2
          exact absurd (List.all_eq_true.mp hw '?' hname) (by decide)
  have hsq : stripQuery pat = pat := stripQuery_of_not_contains pat hpatq
  have hcol : pat.contains ':' = true := by
    obtain ⟨s, hs, htk⟩ := htokex
    have ht : isToken s = true := by
      simp only [isTokSeg, Bool.and_eq_true] at htk
      exact htk.1.1
    have hcs : ':' ∈ s := by
      rw [token_shape s ht]
      exact List.mem_cons_self _ _
    have hmm : ':' ∈ pat := by
      rw [← joinSep_splitChar '/' pat]
      exact mem_join_of_mem_part '/' _ s ':' hs hcs
    exact contains_of_mem pat ':' hmm
  simp only [matchPattern, hsq, hcol, if_true] at hm
  rw [dropBase, if_pos hpre] at hm
  have hdropq : (url.drop nbp.length).contains '?' = false := by
    rw [not_contains_iff] at hurl ⊢
    exact fun hmem => hurl (List.mem_of_mem_drop hmem)
  rw [stripQuery_of_not_contains _ hdropq] at hm
  by_cases hlen : (splitChar '/' pat).length ≠ (splitChar '/' (url.drop nbp.length)).length
  · rw [if_pos hlen] at hm; cases hm
  · rw [if_neg hlen] at hm
    have hlen2 : (splitChar '/' pat).length = (splitChar '/' (url.drop nbp.length)).length :=
      not_not.mp hlen
    have hkeysnd : ((tokenBinds (splitChar '/' pat)
        (splitChar '/' (url.drop nbp.length))).map (fun p => p.1)).Nodup := by
      rw [tokenBinds_keys _ _ hlen2]
      exact hnd
    have hbinds : prs = tokenBinds (splitChar '/' pat) (splitChar '/' (url.drop nbp.length)) := by
      rw [walkSegs_eq_foldBinds _ _ [] prs hm,
        foldl_rset_eq_append _ [] (fun p _ => rfl) hkeysnd]
      rfl
    have hw2 : List.Forall₂ (fun p u => isToken p = true ∨ p = u)
        (splitChar '/' pat) (splitChar '/' (url.drop nbp.length)) := by
      rw [← walkSegs_isSome_iff _ _ ([] : JsObj Chars), hm]
      rfl
    have hrel : List.Forall₂
        (fun p u => (isLitSeg p = true ∧ p = u) ∨ isTokSeg p = true)
        (splitChar '/' pat) (splitChar '/' (url.drop nbp.length)) := by
      rw [List.forall₂_iff_get] at hw2 ⊢
      refine ⟨hw2.1, ?_⟩
      intro i h1 h2
      have hmem := List.get_mem (splitChar '/' pat) i h1
      rcases hsegs _ hmem with hl | htk
      · have hcf : ((splitChar '/' pat).get ⟨i, h1⟩).contains ':' = false := by
          simp only [isLitSeg, Bool.and_eq_true, Bool.not_eq_true'] at hl
          exact hl.1
        have htf := isToken_false_of_noColon _ hcf
        rcases hw2.2 i h1 h2 with ht | heq
        · rw [htf] at ht; cases ht
        · exact Or.inl ⟨hl, heq⟩
      · exact Or.inr htk
    have hbindlookup : ∀ pr ∈ tokenBinds (splitChar '/' pat)
        (splitChar '/' (url.drop nbp.length)), rget prs pr.1 = some pr.2 := by
      intro pr hpr
      rw [hbinds]
      exact rget_of_mem_nodup _ pr hpr hkeysnd
    have hrep := repTok_segments _ _ hrel prs hnd hbindlookup
    have hempty : rdelAll prs (tokenNames (splitChar '/' pat)) = [] := by
      apply rdelAll_all_mem
      intro p hp
      rw [hbinds] at hp
      have hk : p.1 ∈ tokenNames (splitChar '/' pat) := by
        rw [← tokenBinds_keys _ _ hlen2]
        exact List.mem_map_of_mem (fun x => x.1) hp
      exact List.elem_iff.mpr hk
    have hrep2 : repTok (nbp ++ pat) prs
        = (nbp ++ joinSep '/' (splitChar '/' (url.drop nbp.length)), []) := by
      rw [repTok_append_noColon nbp pat prs hbp]
      have hpj : repTok pat prs
          = (joinSep '/' (splitChar '/' (url.drop nbp.length)), []) := by
        conv in repTok pat prs => rw [← joinSep_splitChar '/' pat]
        rw [hrep, hempty]
      rw [hpj]
    rw [buildUrl]
    simp only [hrep2, List.length_nil, gt_iff_lt, Nat.lt_irrefl, if_false]
    rw [joinSep_splitChar '/' (url.drop nbp.length)]
    exact isPrefixOf_append_drop nbp url hpre

theorem c10_match_build_roundtrip_witness :
    buildUrl id [] (toL "/users/:id") [(toL "id", toL "42")] = toL "/users/42" :=
  c10_match_build_roundtrip id rtNone [] (toL "/users/42") (toL "/users/:id")
    [(toL "id", toL "42")] (by decide) (by decide)
    ⟨toL ":id", by decide, by decide⟩ (by decide) (by decide) (by decide) (by decide)

end Webext

